import Mathlib

/-!
# Verification of the base32 codec (`Base32Code.h` / `Base32Code.cpp`)

Shallow embedding of the Crockford-style Base32 codec.  Characters are
modelled by their unsigned character codes (`Nat` values, `0..255`); the
C++ `uint16_t` accumulator is a `Nat` reduced modulo `65536` wherever the
C++ performs a truncating assignment; the C++ `int` shift counters are
`Int` (encode, where the counter goes negative) and `Nat` (decode, where
it stays non-negative).  Strings are `List Nat` of character codes, byte
sequences are `List Nat` (the code only ever uses the low 8 bits of an
input byte, via `0x00ff & *in`).  The throwing constructor is modelled
as an `Option`-returning canonicalization.
-/

namespace Base32

/-- `Base32Code::InvalidDigit()`: the null character, sentinel for
invalid digits. -/
def InvalidDigit : Nat := 0

/-- `Base32Code::InvalidValue()`: `-1`, sentinel for invalid values. -/
def InvalidValue : Int := -1

/-- `Base32Code::DigitBits()`: 5 bits per Base32 digit. -/
def DigitBits : Nat := 5

/-- `Base32Code::CharBits()`: `CHAR_BIT`, 8 bits per byte. -/
def CharBits : Nat := 8

/-- `Base32Code::Mask()`: `0x001f`, the low-5-bit mask. -/
def Mask : Nat := 0x1f

/-- `Base32Code::Digits`: the canonical digits in ascending order of
value, i.e. the character codes of `0123456789ABCDEFGHJKMNPQRSTVWXYZ`. -/
def Digits : List Nat :=
  [48, 49, 50, 51, 52, 53, 54, 55,    -- 0 1 2 3 4 5 6 7
   56, 57, 65, 66, 67, 68, 69, 70,    -- 8 9 A B C D E F
   71, 72, 74, 75, 77, 78, 80, 81,    -- G H J K M N P Q
   82, 83, 84, 86, 87, 88, 89, 90]    -- R S T V W X Y Z

/-- `Base32Code::Canonical`: the `switch` over character codes, case for
case.  Consecutive `case` labels are compressed into ranges.
`std::toupper` on the lower-case letters is subtraction of 32. -/
def Canonical (digit : Nat) : Nat :=
  -- case zero, lower oh, upper oh
  if digit = 48 ∨ digit = 111 ∨ digit = 79 then 48
  -- case one, lower eye, upper eye, lower ell, upper ell
  else if digit = 49 ∨ digit = 105 ∨ digit = 73 ∨ digit = 108 ∨ digit = 76 then 49
  -- cases 2..9, A..H, J, K, M, N, P..T, V..Z : return digit
  else if (50 ≤ digit ∧ digit ≤ 57) ∨ (65 ≤ digit ∧ digit ≤ 72) ∨
          digit = 74 ∨ digit = 75 ∨ digit = 77 ∨ digit = 78 ∨
          (80 ≤ digit ∧ digit ≤ 84) ∨ (86 ≤ digit ∧ digit ≤ 90) then digit
  -- cases a..h, j, k, m, n, p..t, v..z : return toupper(digit)
  else if (97 ≤ digit ∧ digit ≤ 104) ∨ digit = 106 ∨ digit = 107 ∨
          digit = 109 ∨ digit = 110 ∨ (112 ≤ digit ∧ digit ≤ 116) ∨
          (118 ≤ digit ∧ digit ≤ 122) then digit - 32
  -- default
  else InvalidDigit

/-- `Base32Code::IsValid(char)`: `Canonical(c) != InvalidDigit()`. -/
def IsValid (c : Nat) : Bool := Canonical c != InvalidDigit

/-- `Base32Code::Digit`: bounds check against `sizeof(Digits)` (= 32),
then index into `Digits`.  The C++ argument is a `char`, so the domain
is modelled as `Int`. -/
def Digit (value : Int) : Nat :=
  if value < 0 ∨ 32 ≤ value then InvalidDigit
  else Digits.getD value.toNat InvalidDigit

/-- `Base32Code::Value`: canonicalize, then `std::find` the position in
`Digits` (like the C++ without assertions, a failed search yields the
one-past-the-end position 32, but canonicalization makes that
unreachable for valid digits). -/
def Value (digit : Nat) : Int :=
  let canonical := Canonical digit
  if canonical = InvalidDigit then InvalidValue
  else (Digits.indexOf canonical : Int)

/-- The `Base32Code(std::string)` constructor: canonicalize every
character in order; a character that canonicalizes to `InvalidDigit`
makes the constructor throw `std::invalid_argument`, modelled as
`none`. -/
def canonicalize : List Nat → Option (List Nat)
  | [] => some []
  | c :: cs =>
    if Canonical c = InvalidDigit then none
    else match canonicalize cs with
      | none => none
      | some t => some (Canonical c :: t)

/-- The `do { str.push_back(Digit(...)); shift -= DigitBits(); } while
(shift > 0);` inner loop of `Encode`.  Each executed body has
`shift > 0` (established by the loop invariant below), so the C++ shift
by an `int` is a shift by `shift.toNat`. -/
def encWhile (tmp : Nat) (shift : Int) (str : List Nat) : Int × List Nat :=
  if shift - (DigitBits : Int) > 0 then
    encWhile tmp (shift - (DigitBits : Int))
      (str ++ [Digit (↑((tmp &&& (Mask <<< shift.toNat)) >>> shift.toNat))])
  else
    (shift - (DigitBits : Int),
     str ++ [Digit (↑((tmp &&& (Mask <<< shift.toNat)) >>> shift.toNat))])
termination_by shift.toNat
decreasing_by
  simp_wf
  simp only [DigitBits] at *
  omega

/-- One iteration of the byte loop of `Encode`:
`tmp <<= CharBits(); shift += CharBits(); tmp &= 0xff00;
tmp |= 0x00ff & *in;` followed by the inner digit loop.  The `uint16_t`
assignment after the shift truncates modulo `65536`. -/
def encByte (state : Nat × Int × List Nat) (b : Nat) : Nat × Int × List Nat :=
  let tmp := (((state.1 <<< CharBits) % 65536) &&& 0xff00) ||| (b &&& 0xff)
  let res := encWhile tmp (state.2.1 + (CharBits : Int)) state.2.2
  (tmp, res.1, res.2)

/-- The `for (auto in = first; in != last; ++in)` loop of `Encode`. -/
def encodeLoop : List Nat → Nat × Int × List Nat → Nat × Int × List Nat
  | [], state => state
  | b :: bs, state => encodeLoop bs (encByte state b)

/-- `Base32Code::Encode(InputIt, InputIt)`, the raw digit string built
before it is passed to the constructor.  Empty input returns `""`;
otherwise after the loop `tmp <<= std::abs(shift)` (truncating
`uint16_t` assignment) and a final `Digit(tmp & Mask())` is pushed. -/
def encodeStr (bytes : List Nat) : List Nat :=
  if bytes = [] then []
  else
    match encodeLoop bytes (0, -(DigitBits : Int), []) with
    | (tmp, shift, str) =>
      str ++ [Digit (↑(((tmp <<< shift.natAbs) % 65536) &&& Mask))]

/-- `Base32Code::Encode` including the `Base32Code(std::move(str))`
constructor call at the end. -/
def Encode (bytes : List Nat) : Option (List Nat) := canonicalize (encodeStr bytes)

/-- The digit loop of `Base32Code::Decode`.  `tmp <<= DigitBits()` is a
truncating `uint16_t` assignment; `tmp &= ~Mask()` is `&&& 0xffe0` on
`uint16_t`; `tmp |= Mask() & Value(*in)` takes the low five bits of the
(possibly negative) `signed char` value, i.e. `Value(*in)` modulo 32 in
two's complement; `*out++ = tmp >> shift` stores into a byte, truncating
modulo 256. -/
def decodeLoop : List Nat → Nat × Nat × List Nat → Nat × Nat × List Nat
  | [], state => state
  | c :: cs, state =>
    let tmp := (((state.1 <<< DigitBits) % 65536) &&& 0xffe0) ||| (Value c % 32).toNat
    let shift := state.2.1 + DigitBits
    if CharBits ≤ shift then
      decodeLoop cs (tmp, shift - CharBits, state.2.2 ++ [(tmp >>> (shift - CharBits)) % 256])
    else
      decodeLoop cs (tmp, shift, state.2.2)

/-- `Base32Code::Decode(OutputIt)`: run the digit loop, then if bits
remain, `tmp <<= CharBits() - shift` (truncating `uint16_t` assignment)
and emit `static_cast<uint8_t>(tmp)`, i.e. `tmp % 256`. -/
def Decode (code : List Nat) : List Nat :=
  match decodeLoop code (0, 0, []) with
  | (tmp, shift, out) =>
    if 0 < shift then out ++ [((tmp <<< (CharBits - shift)) % 65536) % 256]
    else out

/-- `Base32Code::DecodedSize(size_t)`:
`std::div(digits * DigitBits(), CharBits())`, quotient plus one if the
remainder is non-zero. -/
def DecodedSize (digits : Nat) : Nat :=
  digits * DigitBits / CharBits + (if digits * DigitBits % CharBits = 0 then 0 else 1)

/-! ## Specification-side definitions

The bit-stream reading of the data: a sequence of `w`-bit units, most
significant bit first, denotes the natural number obtained by folding
from the left. -/

/-- The value of a list of `w`-bit units read MSB-first (each unit is
reduced to its low `w` bits, as the code does with `0x00ff & *in`). -/
def packBits (w : Nat) (xs : List Nat) : Nat :=
  xs.foldl (fun a x => a * 2 ^ w + x % 2 ^ w) 0

/-- The value of a byte sequence as one MSB-first bit stream. -/
def streamVal (bytes : List Nat) : Nat := packBits 8 bytes

/-- The numeric value of a digit character as used by `Decode`:
`Mask() & Value(c)`, i.e. `Value c` modulo 32 in two's complement. -/
def valNat (c : Nat) : Nat := ((Value c) % 32).toNat

/-- The value of a digit string as one MSB-first bit stream of 5-bit
groups. -/
def digitStreamVal (code : List Nat) : Nat := packBits 5 (code.map valNat)

/-- Number of digits `Encode` produces for `l` input bytes:
`ceil(8*l/5)`. -/
def encDigitCount (l : Nat) : Nat := (8 * l + 4) / 5

/-- Partitioning the MSB-first bit stream of `bytes` into consecutive
5-bit groups, the final incomplete group zero-filled in its low bits
(the multiplication by `2 ^ (5*n - 8*l)` appends exactly those zero
bits), and mapping each group through `Digit`.  Group `i` of an `n`-group
value `W` is `W / 2 ^ (5*(n-1-i)) % 32`. -/
def encodeSpec (bytes : List Nat) : List Nat :=
  (List.range (encDigitCount bytes.length)).map (fun i =>
    Digit (↑(streamVal bytes * 2 ^ (5 * encDigitCount bytes.length - 8 * bytes.length) /
      2 ^ (5 * (encDigitCount bytes.length - 1 - i)) % 32)))

/-- The canonicalization table exactly as the specification words it:
`0`,`o`,`O` map to `0`; `1`,`i`,`I`,`l`,`L` map to `1`; every other
alphabet character maps to itself; the lower-case form of such an
alphabet letter maps to its upper-case form; everything else maps to
the `Invalid` sentinel.  This is a second, spec-worded definition, to be
compared against `Canonical` (which is translated from the `switch` in
the source). -/
def canonicalSpec (c : Nat) : Nat :=
  if c ∈ [48, 111, 79] then 48                          -- 0 o O
  else if c ∈ [49, 105, 73, 108, 76] then 49            -- 1 i I l L
  else if c ∈ Digits then c                             -- other alphabet characters
  else if 97 ≤ c ∧ c ≤ 122 ∧ (c - 32) ∈ Digits then c - 32  -- lower-case alphabet letters
  else InvalidDigit

/-- The lower-case alias characters of the alphabet letters beyond the
`o`/`i`/`l` special cases: `a..h j k m n p..t v..z`. -/
def lowerAliases : List Nat :=
  [97, 98, 99, 100, 101, 102, 103, 104, 106, 107, 109, 110,
   112, 113, 114, 115, 116, 118, 119, 120, 121, 122]

/-! ## Bit-arithmetic helper lemmas -/

lemma two_pow_pos' (n : Nat) : 0 < 2 ^ n := Nat.pos_pow_of_pos n (by norm_num)

lemma and_shiftLeft_eq (x m s : Nat) : x &&& (m <<< s) = ((x >>> s) &&& m) <<< s := by
  apply Nat.eq_of_testBit_eq
  intro i
  simp only [Nat.testBit_and, Nat.testBit_shiftLeft, Nat.testBit_shiftRight]
  rcases Nat.lt_or_ge i s with h | h
  · have hd : decide (i ≥ s) = false := by simp; omega
    simp [hd]
  · have hd : decide (i ≥ s) = true := by simpa using h
    have he : s + (i - s) = i := by omega
    simp [hd, he, Bool.and_left_comm, Bool.and_comm]

lemma shiftLeft_shiftRight_self (a s : Nat) : (a <<< s) >>> s = a := by
  rw [Nat.shiftLeft_eq, Nat.shiftRight_eq_div_pow]
  exact Nat.mul_div_cancel a (two_pow_pos' s)

lemma extract5 (x s : Nat) : (x &&& (31 <<< s)) >>> s = x / 2 ^ s % 32 := by
  rw [and_shiftLeft_eq, shiftLeft_shiftRight_self]
  have h := Nat.and_pow_two_sub_one_eq_mod (x >>> s) 5
  norm_num at h
  rw [h, Nat.shiftRight_eq_div_pow]

lemma mul_add_div_pow (a r j : Nat) (hr : r < 2 ^ j) : (a * 2 ^ j + r) / 2 ^ j = a := by
  rw [Nat.add_comm, Nat.mul_comm, Nat.add_mul_div_left r a (two_pow_pos' j),
    Nat.div_eq_of_lt hr, Nat.zero_add]

lemma mul_add_mod_pow (a r j : Nat) (hr : r < 2 ^ j) : (a * 2 ^ j + r) % 2 ^ j = r := by
  rw [Nat.add_comm, Nat.add_mul_mod_self_right, Nat.mod_eq_of_lt hr]

lemma encLoad (t b : Nat) :
    (((t <<< 8) % 65536) &&& 0xff00) ||| (b &&& 0xff) = t % 256 * 256 + b % 256 := by
  have h1 : (t <<< 8) % 65536 = t % 256 * 256 := by
    rw [Nat.shiftLeft_eq, show (2:Nat) ^ 8 = 256 from by norm_num,
      show (65536:Nat) = 256 * 256 from by norm_num, Nat.mul_mod_mul_right]
  have h2 : t % 256 * 256 &&& 0xff00 = t % 256 * 256 := by
    rw [show (0xff00:Nat) = 255 <<< 8 from by decide, and_shiftLeft_eq]
    have e1 : (t % 256 * 256) >>> 8 = t % 256 := by
      rw [Nat.shiftRight_eq_div_pow, show (2:Nat) ^ 8 = 256 from by norm_num]
      exact Nat.mul_div_cancel _ (show 0 < 256 from by norm_num)
    have e2 : t % 256 &&& 255 = t % 256 := by
      have h := Nat.and_pow_two_sub_one_eq_mod (t % 256) 8
      norm_num at h
      exact h
    rw [e1, e2, Nat.shiftLeft_eq]
  have h3 : b &&& 0xff = b % 256 := by
    have h := Nat.and_pow_two_sub_one_eq_mod b 8
    norm_num at h
    exact h
  rw [h1, h2, h3]
  have h4 := Nat.mul_add_lt_is_or (show b % 256 < 2 ^ 8 from by
    have := Nat.mod_lt b (show 0 < 256 from by norm_num); omega) (t % 256)
  calc t % 256 * 256 ||| b % 256 = 2 ^ 8 * (t % 256) ||| b % 256 := by ring_nf
    _ = 2 ^ 8 * (t % 256) + b % 256 := (h4).symm
    _ = t % 256 * 256 + b % 256 := by ring

lemma decLoad (t w : Nat) (hw : w < 32) :
    (((t <<< 5) % 65536) &&& 0xffe0) ||| w = t % 2048 * 32 + w := by
  have h1 : (t <<< 5) % 65536 = t % 2048 * 32 := by
    rw [Nat.shiftLeft_eq, show (2:Nat) ^ 5 = 32 from by norm_num,
      show (65536:Nat) = 2048 * 32 from by norm_num, Nat.mul_mod_mul_right]
  have h2 : t % 2048 * 32 &&& 0xffe0 = t % 2048 * 32 := by
    rw [show (0xffe0:Nat) = 2047 <<< 5 from by decide, and_shiftLeft_eq]
    have e1 : (t % 2048 * 32) >>> 5 = t % 2048 := by
      rw [Nat.shiftRight_eq_div_pow, show (2:Nat) ^ 5 = 32 from by norm_num]
      exact Nat.mul_div_cancel _ (show 0 < 32 from by norm_num)
    have e2 : t % 2048 &&& 2047 = t % 2048 := by
      have h := Nat.and_pow_two_sub_one_eq_mod (t % 2048) 11
      norm_num at h
      exact h
    rw [e1, e2, Nat.shiftLeft_eq]
  rw [h1, h2]
  have h4 := Nat.mul_add_lt_is_or (show w < 2 ^ 5 from by omega) (t % 2048)
  calc t % 2048 * 32 ||| w = 2 ^ 5 * (t % 2048) ||| w := by ring_nf
    _ = 2 ^ 5 * (t % 2048) + w := (h4).symm
    _ = t % 2048 * 32 + w := by ring

lemma mod_pow_div_mod (x k j m : Nat) (h : k + j ≤ m) :
    x % 2 ^ m / 2 ^ k % 2 ^ j = x / 2 ^ k % 2 ^ j := by
  have e : (2:Nat) ^ m = 2 ^ k * 2 ^ (m - k) := by
    rw [← pow_add]
    congr 1
    omega
  rw [e, Nat.mod_mul_right_div_self,
    Nat.mod_mod_of_dvd _ (pow_dvd_pow 2 (by omega))]

lemma mod65536_div_mod32 (x k : Nat) (h : k ≤ 11) :
    x % 65536 / 2 ^ k % 32 = x / 2 ^ k % 32 := by
  have h2 := mod_pow_div_mod x k 5 16 (by omega)
  norm_num at h2
  exact h2

lemma mod65536_div_mod256 (x k : Nat) (h : k ≤ 8) :
    x % 65536 / 2 ^ k % 256 = x / 2 ^ k % 256 := by
  have h2 := mod_pow_div_mod x k 8 16 (by omega)
  norm_num at h2
  exact h2

lemma mul_pow_mod_pow (a j k : Nat) (h : j ≤ k) :
    a * 2 ^ j % 2 ^ k = a % 2 ^ (k - j) * 2 ^ j := by
  have e : (2:Nat) ^ k = 2 ^ (k - j) * 2 ^ j := by
    rw [← pow_add]
    congr 1
    omega
  rw [e, Nat.mul_mod_mul_right]

lemma mul_pow_div_pow (a j k : Nat) (h : j ≤ k) :
    a * 2 ^ j / 2 ^ k = a / 2 ^ (k - j) := by
  have e : (2:Nat) ^ k = 2 ^ j * 2 ^ (k - j) := by
    rw [← pow_add]
    congr 1
    omega
  rw [e, ← Nat.div_div_eq_div_mul, Nat.mul_div_cancel _ (two_pow_pos' j)]

/-! ## Properties of `packBits` -/

lemma packBits_nil (w : Nat) : packBits w [] = 0 := rfl

lemma packBits_append (w : Nat) (xs : List Nat) (x : Nat) :
    packBits w (xs ++ [x]) = packBits w xs * 2 ^ w + x % 2 ^ w := by
  simp [packBits, List.foldl_append]

lemma packBits_lt (w : Nat) (xs : List Nat) : packBits w xs < 2 ^ (w * xs.length) := by
  induction xs using List.reverseRecOn with
  | nil => simp [packBits]
  | append_singleton xs x ih =>
    rw [packBits_append]
    have hx : x % 2 ^ w < 2 ^ w := Nat.mod_lt _ (two_pow_pos' w)
    calc packBits w xs * 2 ^ w + x % 2 ^ w
        < packBits w xs * 2 ^ w + 2 ^ w := Nat.add_lt_add_left hx _
      _ = (packBits w xs + 1) * 2 ^ w := by ring
      _ ≤ 2 ^ (w * xs.length) * 2 ^ w := Nat.mul_le_mul_right _ (Nat.succ_le_of_lt ih)
      _ = 2 ^ (w * (xs ++ [x]).length) := by
          rw [List.length_append, List.length_singleton,
            show w * (xs.length + 1) = w * xs.length + w from by ring, pow_add]

lemma packBits_getD (w : Nat) (xs : List Nat) : ∀ i, i < xs.length →
    packBits w xs / 2 ^ (w * (xs.length - 1 - i)) % 2 ^ w = xs.getD i 0 % 2 ^ w := by
  induction xs using List.reverseRecOn with
  | nil => intro i hi; simp at hi
  | append_singleton xs x ih =>
    intro i hi
    rw [List.length_append, List.length_singleton] at hi
    rw [packBits_append, List.length_append, List.length_singleton]
    rcases Nat.lt_or_ge i xs.length with h | h
    · have hexp : w * (xs.length + 1 - 1 - i) = w * (xs.length - 1 - i) + w := by
        rw [show xs.length + 1 - 1 - i = (xs.length - 1 - i) + 1 from by omega, Nat.mul_succ]
      rw [hexp, pow_add, Nat.mul_comm (2 ^ (w * (xs.length - 1 - i))) (2 ^ w),
        ← Nat.div_div_eq_div_mul,
        mul_add_div_pow _ _ _ (Nat.mod_lt _ (two_pow_pos' w)), ih i h,
        List.getD_append _ _ _ _ h]
    · have hi' : i = xs.length := by omega
      subst hi'
      rw [show xs.length + 1 - 1 - xs.length = 0 from by omega]
      simp only [Nat.mul_zero, pow_zero, Nat.div_one]
      rw [mul_add_mod_pow _ _ _ (Nat.mod_lt _ (two_pow_pos' w))]
      rw [List.getD_append_right _ _ _ _ (Nat.le_refl _), Nat.sub_self]
      simp [Nat.mod_mod_of_dvd]

lemma packBits_reconstruct (w : Nat) : ∀ (n : Nat) (v : Nat),
    packBits w ((List.range n).map (fun i => v / 2 ^ (w * (n - 1 - i)) % 2 ^ w)) =
      v % 2 ^ (w * n) := by
  intro n
  induction n with
  | zero => intro v; simp [packBits, Nat.mod_one]
  | succ n ih =>
    intro v
    rw [List.range_succ, List.map_append, List.map_singleton, packBits_append]
    have hpre : (List.range n).map (fun i => v / 2 ^ (w * (n + 1 - 1 - i)) % 2 ^ w)
        = (List.range n).map (fun i => (v / 2 ^ w) / 2 ^ (w * (n - 1 - i)) % 2 ^ w) := by
      apply List.map_congr_left
      intro i hi
      rw [List.mem_range] at hi
      rw [show w * (n + 1 - 1 - i) = w + w * (n - 1 - i) from by
            rw [show n + 1 - 1 - i = (n - 1 - i) + 1 from by omega, Nat.mul_succ]
            ring,
        pow_add, ← Nat.div_div_eq_div_mul]
    rw [hpre, ih (v / 2 ^ w), show n + 1 - 1 - n = 0 from by omega]
    simp only [Nat.mul_zero, pow_zero, Nat.div_one, Nat.mod_mod_of_dvd _ dvd_rfl]
    rw [show w * (n + 1) = w + w * n from by ring, pow_add, Nat.mod_mul]
    ring

/-! ## The `Encode` loop invariant -/

lemma encWhile_unfold (tmp : Nat) (shift : Int) (str : List Nat) :
    encWhile tmp shift str =
      if shift - (DigitBits : Int) > 0 then
        encWhile tmp (shift - (DigitBits : Int))
          (str ++ [Digit (↑((tmp &&& (Mask <<< shift.toNat)) >>> shift.toNat))])
      else (shift - (DigitBits : Int),
        str ++ [Digit (↑((tmp &&& (Mask <<< shift.toNat)) >>> shift.toNat))]) := by
  rw [encWhile]

lemma encWhile_one (tmp : Nat) (shift : Int) (str : List Nat) (h1 : 0 < shift)
    (h2 : shift ≤ 5) :
    encWhile tmp shift str =
      (shift - 5, str ++ [Digit (↑(tmp / 2 ^ shift.toNat % 32))]) := by
  rw [encWhile_unfold]
  have hc : ¬(shift - (DigitBits : Int) > 0) := by
    simp only [DigitBits]
    omega
  rw [if_neg hc, show Mask = 31 from rfl, extract5]
  simp only [DigitBits, Nat.cast_ofNat]

lemma encWhile_two (tmp : Nat) (shift : Int) (str : List Nat) (h1 : 6 ≤ shift)
    (h2 : shift ≤ 10) :
    encWhile tmp shift str =
      (shift - 10, str ++ [Digit (↑(tmp / 2 ^ shift.toNat % 32)),
        Digit (↑(tmp / 2 ^ (shift - 5).toNat % 32))]) := by
  rw [encWhile_unfold]
  have hc : shift - (DigitBits : Int) > 0 := by
    simp only [DigitBits]
    omega
  rw [if_pos hc, show Mask = 31 from rfl, extract5,
    encWhile_one _ _ _ (by simp only [DigitBits]; omega) (by simp only [DigitBits]; omega)]
  simp only [DigitBits, Nat.cast_ofNat, List.append_assoc, List.singleton_append,
    Prod.mk.injEq]
  exact ⟨by omega, trivial⟩

lemma encodeLoop_append (xs ys : List Nat) (s : Nat × Int × List Nat) :
    encodeLoop (xs ++ ys) s = encodeLoop ys (encodeLoop xs s) := by
  induction xs generalizing s with
  | nil => rfl
  | cons b bs ih => simp [encodeLoop, ih]

lemma encodeLoop_inv (bs : List Nat) (hne : bs ≠ []) :
    ∃ d lft : Nat,
      8 * bs.length = 5 * d + lft ∧ 1 ≤ lft ∧ lft ≤ 5 ∧
      encodeLoop bs (0, -(DigitBits : Int), []) =
        (streamVal bs % 65536, (lft : Int) - 5,
         (List.range d).map (fun i =>
           Digit (↑(streamVal bs / 2 ^ (8 * bs.length - 5 * (i + 1)) % 32)))) := by
  induction bs using List.reverseRecOn with
  | nil => exact absurd rfl hne
  | append_singleton bs b ih =>
    rcases eq_or_ne bs [] with hbs | hbs
    · subst hbs
      refine ⟨1, 3, by simp, by omega, by omega, ?_⟩
      simp only [List.nil_append]
      have hV : streamVal [b] = b % 256 := by
        simp [streamVal, packBits]
      have hb2 : b % 256 < 256 := Nat.mod_lt _ (by norm_num)
      rw [show encodeLoop [b] (0, -(DigitBits : Int), []) =
            encByte (0, -(DigitBits : Int), []) b from rfl]
      simp only [encByte, CharBits, DigitBits]
      rw [encLoad]
      have hsh : (-(((5:Nat)):Int) + ((8:Nat):Int)) = 3 := by omega
      rw [hsh, encWhile_one _ _ _ (by omega) (by omega)]
      have hz : (0:Nat) % 256 * 256 + b % 256 = b % 256 := by omega
      rw [hz]
      have hR1 : streamVal [b] % 65536 = b % 256 := by
        rw [hV]
        omega
      have hR3 : List.map (fun i =>
            Digit (↑(streamVal [b] / 2 ^ (8 * [b].length - 5 * (i + 1)) % 32)))
            (List.range 1) = [Digit (↑(b % 256 / 2 ^ (Int.toNat 3) % 32))] := by
        rw [show List.range 1 = [0] from rfl, List.map_singleton, hV,
          show Int.toNat 3 = 3 from rfl]
        norm_num
      rw [hR1, hR3]
      norm_num
    · obtain ⟨d, lft, hdl, hl1, hl5, heq⟩ := ih hbs
      have hV' : streamVal (bs ++ [b]) = streamVal bs * 256 + b % 256 := by
        have h := packBits_append 8 bs b
        norm_num at h
        exact h
      have hVmod : streamVal bs % 256 < 256 := Nat.mod_lt _ (by norm_num)
      have hbmod : b % 256 < 256 := Nat.mod_lt _ (by norm_num)
      have htmp : streamVal bs % 65536 % 256 * 256 + b % 256 =
          streamVal (bs ++ [b]) % 65536 := by
        rw [Nat.mod_mod_of_dvd _ (show (256:Nat) ∣ 65536 from by norm_num), hV',
          Nat.add_mod,
          show (65536:Nat) = 256 * 256 from by norm_num, Nat.mul_mod_mul_right,
          Nat.mod_eq_of_lt (show b % 256 < 256 * 256 from by omega),
          Nat.mod_eq_of_lt (show streamVal bs % 256 * 256 + b % 256 < 256 * 256 from by
            nlinarith)]
      have hdiv : ∀ e, streamVal (bs ++ [b]) / 2 ^ (e + 8) = streamVal bs / 2 ^ e := by
        intro e
        rw [hV', pow_add, Nat.mul_comm (2 ^ e) (2 ^ 8), ← Nat.div_div_eq_div_mul,
          show (256:Nat) = 2 ^ 8 from by norm_num,
          mul_add_div_pow _ _ _ (show b % 2 ^ 8 < 2 ^ 8 from Nat.mod_lt _ (by norm_num))]
      have hlen : (bs ++ [b]).length = bs.length + 1 := by
        rw [List.length_append, List.length_singleton]
      have hmain : encodeLoop (bs ++ [b]) (0, -(DigitBits : Int), []) =
          encByte (streamVal bs % 65536, (lft : Int) - 5,
            (List.range d).map (fun i =>
              Digit (↑(streamVal bs / 2 ^ (8 * bs.length - 5 * (i + 1)) % 32)))) b := by
        rw [encodeLoop_append, heq]
        rfl
      rw [hmain]
      simp only [encByte, CharBits]
      rw [encLoad, htmp]
      have hsh : ((lft : Int) - 5 + ((8:Nat):Int)) = (lft : Int) + 3 := by
        push_cast
        omega
      rw [hsh]
      rcases Nat.lt_or_ge lft 3 with hc | hc
      · -- one digit is pushed for this byte
        refine ⟨d + 1, lft + 3, by omega, by omega, by omega, ?_⟩
        rw [encWhile_one _ _ _ (by omega) (by omega)]
        simp only [Prod.mk.injEq]
        refine ⟨trivial, by push_cast; omega, ?_⟩
        rw [show ((lft : Int) + 3).toNat = lft + 3 from by omega]
        rw [List.range_succ, List.map_append, List.map_singleton]
        congr 1
        · apply List.map_congr_left
          intro i hi
          rw [List.mem_range] at hi
          rw [hlen, show 8 * (bs.length + 1) - 5 * (i + 1) =
              (8 * bs.length - 5 * (i + 1)) + 8 from by omega, hdiv]
        · rw [mod65536_div_mod32 _ _ (by omega), hlen,
            show 8 * (bs.length + 1) - 5 * (d + 1) = lft + 3 from by omega]
      · -- two digits are pushed for this byte
        refine ⟨d + 2, lft - 2, by omega, by omega, by omega, ?_⟩
        rw [encWhile_two _ _ _ (by omega) (by omega)]
        simp only [Prod.mk.injEq]
        refine ⟨trivial, by omega, ?_⟩
        rw [show ((lft : Int) + 3).toNat = lft + 3 from by omega,
          show ((lft : Int) + 3 - 5).toNat = lft - 2 from by omega]
        rw [show d + 2 = (d + 1) + 1 from rfl, List.range_succ, List.map_append,
          List.map_singleton, List.range_succ, List.map_append, List.map_singleton]
        rw [List.append_assoc, List.singleton_append]
        congr 1
        · apply List.map_congr_left
          intro i hi
          rw [List.mem_range] at hi
          rw [hlen, show 8 * (bs.length + 1) - 5 * (i + 1) =
              (8 * bs.length - 5 * (i + 1)) + 8 from by omega, hdiv]
        · rw [mod65536_div_mod32 _ _ (by omega), mod65536_div_mod32 _ _ (by omega), hlen,
            show 8 * (bs.length + 1) - 5 * (d + 1) = lft + 3 from by omega,
            show 8 * (bs.length + 1) - 5 * (d + 1 + 1) = lft - 2 from by omega]

lemma and_31_eq_mod (x : Nat) : x &&& 31 = x % 32 := by
  have h := Nat.and_pow_two_sub_one_eq_mod x 5
  norm_num at h
  exact h

lemma mod65536_mul_mod32 (x k : Nat) : x % 65536 * 2 ^ k % 32 = x * 2 ^ k % 32 :=
  Nat.ModEq.of_dvd (show (32:Nat) ∣ 65536 from by norm_num)
    ((Nat.mod_modEq x 65536).mul_right (2 ^ k))

/-- The digit string built by `Encode` is exactly the 5-bit MSB-first
partition of the input bit stream, zero-filled at the tail. -/
lemma encodeStr_eq_spec (bytes : List Nat) : encodeStr bytes = encodeSpec bytes := by
  rcases eq_or_ne bytes [] with hb | hb
  · subst hb
    rfl
  · obtain ⟨d, lft, hdl, hl1, hl5, heq⟩ := encodeLoop_inv bytes hb
    have hlpos : 1 ≤ bytes.length := by
      cases bytes
      · exact absurd rfl hb
      · simp
    have hn : encDigitCount bytes.length = d + 1 := by
      simp only [encDigitCount]
      omega
    rw [encodeStr, if_neg hb, heq]
    simp only [encodeSpec, hn]
    rw [List.range_succ, List.map_append, List.map_singleton]
    congr 1
    · apply List.map_congr_left
      intro i hi
      rw [List.mem_range] at hi
      rw [show d + 1 - 1 - i = d - i from by omega,
        mul_pow_div_pow _ _ _ (show 5 * (d + 1) - 8 * bytes.length ≤ 5 * (d - i) from by
          omega),
        show 5 * (d - i) - (5 * (d + 1) - 8 * bytes.length) =
          8 * bytes.length - 5 * (i + 1) from by omega]
    · rw [show Mask = 31 from rfl, and_31_eq_mod, Nat.shiftLeft_eq,
        Nat.mod_mod_of_dvd _ (show (32:Nat) ∣ 65536 from by norm_num),
        mod65536_mul_mod32,
        show ((lft : Int) - 5).natAbs = 5 - lft from by omega,
        show d + 1 - 1 - d = 0 from by omega]
      rw [Nat.mul_zero, pow_zero, Nat.div_one,
        show 5 * (d + 1) - 8 * bytes.length = 5 - lft from by omega]

lemma encodeSpec_length (bytes : List Nat) :
    (encodeSpec bytes).length = encDigitCount bytes.length := by
  simp [encodeSpec]

/-! ## The `Decode` loop invariant -/

lemma mod65536_mul_mod256 (x k : Nat) : x % 65536 * 2 ^ k % 256 = x * 2 ^ k % 256 :=
  Nat.ModEq.of_dvd (show (256:Nat) ∣ 65536 from by norm_num)
    ((Nat.mod_modEq x 65536).mul_right (2 ^ k))

lemma decodeLoop_append (xs ys : List Nat) (s : Nat × Nat × List Nat) :
    decodeLoop (xs ++ ys) s = decodeLoop ys (decodeLoop xs s) := by
  induction xs generalizing s with
  | nil => rfl
  | cons c cs ih =>
    simp only [List.cons_append, decodeLoop]
    split
    · exact ih _
    · exact ih _

lemma decodeLoop_closed (code : List Nat) :
    decodeLoop code (0, 0, []) =
      (digitStreamVal code % 65536, 5 * code.length % 8,
       (List.range (5 * code.length / 8)).map (fun i =>
         digitStreamVal code / 2 ^ (5 * code.length - 8 * (i + 1)) % 256)) := by
  induction code using List.reverseRecOn with
  | nil => rfl
  | append_singleton code c ih =>
    have hw : (Value c % 32).toNat < 32 := by omega
    have hV' : digitStreamVal (code ++ [c]) =
        digitStreamVal code * 32 + (Value c % 32).toNat := by
      simp only [digitStreamVal, List.map_append, List.map_singleton, valNat]
      rw [packBits_append, show (2:Nat) ^ 5 = 32 from by norm_num,
        Nat.mod_eq_of_lt hw]
    have hVa : digitStreamVal code % 2048 < 2048 := Nat.mod_lt _ (by norm_num)
    have htmp : digitStreamVal code % 65536 % 2048 * 32 + (Value c % 32).toNat =
        digitStreamVal (code ++ [c]) % 65536 := by
      rw [Nat.mod_mod_of_dvd _ (show (2048:Nat) ∣ 65536 from by norm_num), hV',
        Nat.add_mod, show (65536:Nat) = 2048 * 32 from by norm_num,
        Nat.mul_mod_mul_right,
        Nat.mod_eq_of_lt (show (Value c % 32).toNat < 2048 * 32 from by omega),
        Nat.mod_eq_of_lt (show digitStreamVal code % 2048 * 32 + (Value c % 32).toNat
          < 2048 * 32 from by nlinarith)]
    have hdiv5 : ∀ e, digitStreamVal (code ++ [c]) / 2 ^ (e + 5) =
        digitStreamVal code / 2 ^ e := by
      intro e
      rw [hV', pow_add, Nat.mul_comm (2 ^ e) (2 ^ 5), ← Nat.div_div_eq_div_mul,
        show (32:Nat) = 2 ^ 5 from by norm_num,
        mul_add_div_pow _ _ _ (show (Value c % 32).toNat < 2 ^ 5 from by omega)]
    have hlen : (code ++ [c]).length = code.length + 1 := by
      rw [List.length_append, List.length_singleton]
    rw [decodeLoop_append, ih]
    simp only [decodeLoop, DigitBits, CharBits]
    rw [decLoad _ _ hw, htmp]
    rcases Nat.lt_or_ge (5 * code.length % 8) 3 with hs | hs
    · rw [if_neg (by omega)]
      simp only [Prod.mk.injEq]
      refine ⟨trivial, by omega, ?_⟩
      rw [hlen, show 5 * (code.length + 1) / 8 = 5 * code.length / 8 from by omega]
      apply List.map_congr_left
      intro i hi
      rw [List.mem_range] at hi
      rw [show 5 * (code.length + 1) - 8 * (i + 1) =
          (5 * code.length - 8 * (i + 1)) + 5 from by omega, hdiv5]
    · rw [if_pos (by omega)]
      simp only [Prod.mk.injEq]
      refine ⟨trivial, by omega, ?_⟩
      rw [hlen, show 5 * (code.length + 1) / 8 = 5 * code.length / 8 + 1 from by omega,
        List.range_succ, List.map_append, List.map_singleton]
      congr 1
      · apply List.map_congr_left
        intro i hi
        rw [List.mem_range] at hi
        rw [show 5 * (code.length + 1) - 8 * (i + 1) =
            (5 * code.length - 8 * (i + 1)) + 5 from by omega, hdiv5]
      · rw [Nat.shiftRight_eq_div_pow,
          mod65536_div_mod256 _ _ (by omega),
          show 5 * (code.length + 1) - 8 * (5 * code.length / 8 + 1) =
            5 * code.length % 8 + 5 - 8 from by omega]

/-- Closed form of `Decode`: the full bytes of the 5-bit digit stream,
then (when the digit count does not fill whole bytes) one final byte
holding the leftover bits, zero-filled on the low side. -/
lemma decode_closed (code : List Nat) :
    Decode code =
      (List.range (5 * code.length / 8)).map (fun i =>
        digitStreamVal code / 2 ^ (5 * code.length - 8 * (i + 1)) % 256) ++
      (if 5 * code.length % 8 = 0 then []
       else [digitStreamVal code % 2 ^ (5 * code.length % 8) *
         2 ^ (8 - 5 * code.length % 8)]) := by
  rw [Decode, decodeLoop_closed]
  simp only [CharBits]
  rcases Nat.eq_zero_or_pos (5 * code.length % 8) with hz | hp
  · rw [hz, if_neg (by omega), if_pos rfl, List.append_nil]
  · rw [if_pos hp, if_neg (by omega)]
    congr 1
    rw [Nat.shiftLeft_eq,
      Nat.mod_mod_of_dvd _ (show (256:Nat) ∣ 65536 from by norm_num),
      mod65536_mul_mod256,
      show (256:Nat) = 2 ^ 8 from by norm_num,
      mul_pow_mod_pow _ _ _ (by omega),
      show 8 - (8 - 5 * code.length % 8) = 5 * code.length % 8 from by omega]

/-! ## Finite facts about the digit table -/

lemma valNat_digit_fin : ∀ g : Fin 32, valNat (Digit ((g : Nat) : Int)) = (g : Nat) := by
  decide

lemma valNat_digit (g : Nat) (hg : g < 32) : valNat (Digit (↑g)) = g := by
  have h := valNat_digit_fin ⟨g, hg⟩
  simpa using h

lemma digits_all_ok : ∀ c ∈ Digits,
    Digit (↑(valNat c)) = c ∧ valNat c < 32 ∧ Canonical c = c ∧ c ≠ InvalidDigit := by
  decide

lemma digit_mem_digits_fin : ∀ g : Fin 32, Digit ((g : Nat) : Int) ∈ Digits := by
  decide

lemma digit_mem_digits (g : Nat) (hg : g < 32) : Digit (↑g) ∈ Digits := by
  have h := digit_mem_digits_fin ⟨g, hg⟩
  simpa using h

/-! ## Round trip: bytes through `Encode` then `Decode` -/

lemma digitStreamVal_encodeSpec (bytes : List Nat) :
    digitStreamVal (encodeSpec bytes) =
      streamVal bytes * 2 ^ (5 * encDigitCount bytes.length - 8 * bytes.length) := by
  have h2 : 8 * bytes.length ≤ 5 * encDigitCount bytes.length := by
    simp only [encDigitCount]
    omega
  have hlt : streamVal bytes * 2 ^ (5 * encDigitCount bytes.length - 8 * bytes.length) <
      2 ^ (5 * encDigitCount bytes.length) := by
    have h1 : streamVal bytes < 2 ^ (8 * bytes.length) := packBits_lt 8 bytes
    calc streamVal bytes * 2 ^ (5 * encDigitCount bytes.length - 8 * bytes.length)
        < 2 ^ (8 * bytes.length) *
            2 ^ (5 * encDigitCount bytes.length - 8 * bytes.length) :=
          mul_lt_mul_of_pos_right h1 (two_pow_pos' _)
      _ = 2 ^ (5 * encDigitCount bytes.length) := by
          rw [← pow_add]
          congr 1
          omega
  have hmap : List.map valNat (encodeSpec bytes)
      = (List.range (encDigitCount bytes.length)).map (fun i =>
          streamVal bytes * 2 ^ (5 * encDigitCount bytes.length - 8 * bytes.length) /
            2 ^ (5 * (encDigitCount bytes.length - 1 - i)) % 2 ^ 5) := by
    rw [encodeSpec, List.map_map]
    apply List.map_congr_left
    intro i hi
    simp only [Function.comp]
    rw [valNat_digit _ (Nat.mod_lt _ (by norm_num))]
    norm_num
  rw [digitStreamVal, hmap, packBits_reconstruct, Nat.mod_eq_of_lt hlt]

lemma map_range_getD (xs : List Nat) (f : Nat → Nat) :
    (List.range xs.length).map (fun i => f (xs.getD i 0)) = xs.map f := by
  apply List.ext_getElem
  · simp
  · intro i h1 h2
    simp only [List.getElem_map, List.getElem_range]
    rw [List.getD_eq_getElem]

lemma decode_encodeStr (bytes : List Nat) :
    Decode (encodeStr bytes) =
      bytes.map (· % 256) ++ (if bytes.length % 5 = 0 then [] else [0]) := by
  rw [encodeStr_eq_spec, decode_closed, digitStreamVal_encodeSpec, encodeSpec_length]
  have hn : 8 * bytes.length ≤ 5 * encDigitCount bytes.length ∧
      5 * encDigitCount bytes.length ≤ 8 * bytes.length + 4 := by
    simp only [encDigitCount]
    omega
  have hmod : 5 * encDigitCount bytes.length % 8 =
      5 * encDigitCount bytes.length - 8 * bytes.length := by omega
  have hdivl : 5 * encDigitCount bytes.length / 8 = bytes.length := by omega
  have hbytes : (List.range (5 * encDigitCount bytes.length / 8)).map (fun i =>
      streamVal bytes * 2 ^ (5 * encDigitCount bytes.length - 8 * bytes.length) /
        2 ^ (5 * encDigitCount bytes.length - 8 * (i + 1)) % 256)
      = bytes.map (· % 256) := by
    rw [hdivl]
    rw [show bytes.map (· % 256) = bytes.map (fun b => b % 2 ^ 8) from by norm_num,
      ← map_range_getD bytes (fun b => b % 2 ^ 8)]
    apply List.map_congr_left
    intro i hi
    rw [List.mem_range] at hi
    rw [mul_pow_div_pow _ _ _ (by omega),
      show 5 * encDigitCount bytes.length - 8 * (i + 1) -
          (5 * encDigitCount bytes.length - 8 * bytes.length) =
        8 * (bytes.length - 1 - i) from by omega]
    have h := packBits_getD 8 bytes i hi
    norm_num at h ⊢
    exact h
  rw [hbytes, hmod]
  rcases Nat.eq_zero_or_pos (5 * encDigitCount bytes.length - 8 * bytes.length)
    with hz | hp
  · rw [hz, if_pos rfl, if_pos (by omega)]
  · rw [if_neg (by omega), if_neg (by omega), Nat.mul_mod_left, Nat.zero_mul]

/-! ## Round trip: a Code through `Decode` then `Encode` -/

lemma mul_pow_div_pow_le (a j k : Nat) (h : k ≤ j) : a * 2 ^ j / 2 ^ k = a * 2 ^ (j - k) := by
  rw [show (2:Nat) ^ j = 2 ^ (j - k) * 2 ^ k from by rw [← pow_add]; congr 1; omega,
    ← Nat.mul_assoc, Nat.mul_div_cancel _ (two_pow_pos' k)]

lemma digitStreamVal_lt (code : List Nat) :
    digitStreamVal code < 2 ^ (5 * code.length) := by
  have h := packBits_lt 5 (code.map valNat)
  rwa [List.length_map] at h

lemma decode_length (code : List Nat) :
    (Decode code).length = DecodedSize code.length := by
  rw [decode_closed]
  simp only [List.length_append, List.length_map, List.length_range, DecodedSize,
    DigitBits, CharBits]
  rcases Nat.eq_zero_or_pos (5 * code.length % 8) with hz | hp
  · rw [hz, if_pos rfl, if_pos (by omega)]
    simp
    omega
  · rw [if_neg (by omega), if_neg (by omega)]
    simp
    omega

lemma streamVal_decode_zero (code : List Nat) (hs : 5 * code.length % 8 = 0) :
    streamVal (Decode code) = digitStreamVal code := by
  rw [decode_closed, if_pos hs, List.append_nil, streamVal]
  have hmap : (List.range (5 * code.length / 8)).map (fun i =>
      digitStreamVal code / 2 ^ (5 * code.length - 8 * (i + 1)) % 256)
      = (List.range (5 * code.length / 8)).map (fun i =>
        digitStreamVal code / 2 ^ (8 * (5 * code.length / 8 - 1 - i)) % 2 ^ 8) := by
    apply List.map_congr_left
    intro i hi
    rw [List.mem_range] at hi
    rw [show 5 * code.length - 8 * (i + 1) =
      8 * (5 * code.length / 8 - 1 - i) from by omega]
    norm_num
  rw [hmap, packBits_reconstruct, Nat.mod_eq_of_lt]
  have h := digitStreamVal_lt code
  calc digitStreamVal code < 2 ^ (5 * code.length) := h
    _ = 2 ^ (8 * (5 * code.length / 8)) := by congr 1; omega

lemma streamVal_decode_pos (code : List Nat) (hs : 5 * code.length % 8 ≠ 0) :
    streamVal (Decode code) =
      digitStreamVal code * 2 ^ (8 - 5 * code.length % 8) := by
  have hV := digitStreamVal_lt code
  have hs7 : 5 * code.length % 8 < 8 := Nat.mod_lt _ (by norm_num)
  rw [decode_closed, if_neg hs, streamVal, packBits_append]
  have hmap : (List.range (5 * code.length / 8)).map (fun i =>
      digitStreamVal code / 2 ^ (5 * code.length - 8 * (i + 1)) % 256)
      = (List.range (5 * code.length / 8)).map (fun i =>
        digitStreamVal code / 2 ^ (5 * code.length % 8) /
          2 ^ (8 * (5 * code.length / 8 - 1 - i)) % 2 ^ 8) := by
    apply List.map_congr_left
    intro i hi
    rw [List.mem_range] at hi
    rw [show 5 * code.length - 8 * (i + 1) =
        8 * (5 * code.length / 8 - 1 - i) + 5 * code.length % 8 from by omega,
      pow_add, Nat.mul_comm, ← Nat.div_div_eq_div_mul]
    norm_num
  have hdivlt : digitStreamVal code / 2 ^ (5 * code.length % 8) <
      2 ^ (8 * (5 * code.length / 8)) := by
    rw [Nat.div_lt_iff_lt_mul (two_pow_pos' _), ← pow_add]
    calc digitStreamVal code < 2 ^ (5 * code.length) := hV
      _ ≤ 2 ^ (8 * (5 * code.length / 8) + 5 * code.length % 8) :=
          Nat.pow_le_pow_right (by norm_num) (by omega)
  have hlast : digitStreamVal code % 2 ^ (5 * code.length % 8) *
      2 ^ (8 - 5 * code.length % 8) % 2 ^ 8 =
      digitStreamVal code % 2 ^ (5 * code.length % 8) *
      2 ^ (8 - 5 * code.length % 8) := by
    apply Nat.mod_eq_of_lt
    calc digitStreamVal code % 2 ^ (5 * code.length % 8) *
        2 ^ (8 - 5 * code.length % 8)
        < 2 ^ (5 * code.length % 8) * 2 ^ (8 - 5 * code.length % 8) :=
          mul_lt_mul_of_pos_right (Nat.mod_lt _ (two_pow_pos' _)) (two_pow_pos' _)
      _ = 2 ^ 8 := by rw [← pow_add]; congr 1; omega
  rw [hmap, packBits_reconstruct, Nat.mod_eq_of_lt hdivlt, hlast]
  rw [show (2:Nat) ^ 8 = 2 ^ (5 * code.length % 8) * 2 ^ (8 - 5 * code.length % 8)
      from by rw [← pow_add]; congr 1; omega, ← Nat.mul_assoc]
  rw [← Nat.add_mul, Nat.div_add_mod']

lemma encodeStr_decode (code : List Nat) (hc : ∀ c ∈ code, c ∈ Digits) :
    encodeStr (Decode code) =
      code ++ List.replicate
        (encDigitCount (DecodedSize code.length) - code.length) 48 := by
  have hV := digitStreamVal_lt code
  have hs7 : 5 * code.length % 8 < 8 := Nat.mod_lt _ (by norm_num)
  have hlb : (Decode code).length = DecodedSize code.length := decode_length code
  have hds : DecodedSize code.length =
      5 * code.length / 8 + (if 5 * code.length % 8 = 0 then 0 else 1) := by
    simp only [DecodedSize, DigitBits, CharBits]
    rcases Nat.eq_zero_or_pos (5 * code.length % 8) with hz | hp
    · rw [if_pos (by omega), if_pos (by omega)]
      omega
    · rw [if_neg (by omega), if_neg (by omega)]
      omega
  have h8lb : 8 * DecodedSize code.length =
      5 * code.length + ((8 - 5 * code.length % 8) % 8) := by
    rcases Nat.eq_zero_or_pos (5 * code.length % 8) with hz | hp
    · rw [hds, if_pos hz]
      omega
    · rw [hds, if_neg (by omega)]
      omega
  have hl_le : code.length ≤ encDigitCount (DecodedSize code.length) := by
    simp only [encDigitCount]
    omega
  have h5n : 8 * DecodedSize code.length ≤
      5 * encDigitCount (DecodedSize code.length) ∧
      5 * encDigitCount (DecodedSize code.length) ≤ 8 * DecodedSize code.length + 4 := by
    simp only [encDigitCount]
    omega
  have hW : streamVal (Decode code) *
      2 ^ (5 * encDigitCount (DecodedSize code.length) - 8 * DecodedSize code.length) =
      digitStreamVal code *
        2 ^ (5 * (encDigitCount (DecodedSize code.length) - code.length)) := by
    rcases Nat.eq_zero_or_pos (5 * code.length % 8) with hz | hp
    · rw [streamVal_decode_zero code hz]
      congr 2
      omega
    · rw [streamVal_decode_pos code (by omega), Nat.mul_assoc, ← pow_add]
      congr 2
      omega
  rw [encodeStr_eq_spec]
  apply List.ext_getElem
  · rw [encodeSpec_length, hlb, List.length_append, List.length_replicate]
    omega
  · intro i h1 h2
    rw [encodeSpec_length, hlb] at h1
    simp only [encodeSpec, List.getElem_map, List.getElem_range, hlb, hW]
    rw [List.getElem_append]
    rcases Nat.lt_or_ge i code.length with hi | hi
    · rw [dif_pos hi]
      rw [mul_pow_div_pow _ _ _ (show
          5 * (encDigitCount (DecodedSize code.length) - code.length) ≤
          5 * (encDigitCount (DecodedSize code.length) - 1 - i) from by omega),
        show 5 * (encDigitCount (DecodedSize code.length) - 1 - i) -
            5 * (encDigitCount (DecodedSize code.length) - code.length) =
          5 * (code.length - 1 - i) from by omega]
      have hext := packBits_getD 5 (code.map valNat) i (by rwa [List.length_map])
      rw [List.length_map, List.getD_eq_getElem _ _ (by simpa using hi),
        List.getElem_map] at hext
      have hvi : valNat code[i] < 32 := (digits_all_ok code[i]
        (hc _ (List.getElem_mem hi))).2.1
      rw [show digitStreamVal code = packBits 5 (code.map valNat) from rfl,
        show (32:Nat) = 2 ^ 5 from by norm_num, hext,
        Nat.mod_eq_of_lt (show valNat code[i] < 2 ^ 5 from by omega)]
      exact (digits_all_ok code[i] (hc _ (List.getElem_mem hi))).1
    · rw [dif_neg (by omega)]
      rw [List.getElem_replicate]
      rw [mul_pow_div_pow_le _ _ _ (show
          5 * (encDigitCount (DecodedSize code.length) - 1 - i) ≤
          5 * (encDigitCount (DecodedSize code.length) - code.length) from by omega),
        show 5 * (encDigitCount (DecodedSize code.length) - code.length) -
            5 * (encDigitCount (DecodedSize code.length) - 1 - i) =
          5 * (i - code.length) + 5 from by omega,
        pow_add, ← Nat.mul_assoc,
        show (2:Nat) ^ 5 = 32 from by norm_num, Nat.mul_mod_left]
      rfl

/-! ## The constructor: canonicalization of whole strings -/

lemma canonicalize_eq (s : List Nat) :
    canonicalize s =
      if s.all (fun c => !(Canonical c == InvalidDigit)) then some (s.map Canonical)
      else none := by
  induction s with
  | nil => rfl
  | cons c cs ih =>
    simp only [canonicalize, List.all_cons, List.map_cons, ih]
    rcases eq_or_ne (Canonical c) InvalidDigit with h | h
    · simp [h]
    · cases hcs : cs.all (fun c => !(Canonical c == InvalidDigit)) with
      | false => simp [h, hcs]
      | true => simp [h, hcs]

lemma canonicalize_none_iff (s : List Nat) :
    canonicalize s = none ↔ ∃ c ∈ s, Canonical c = InvalidDigit := by
  rw [canonicalize_eq]
  cases hs : s.all (fun c => !(Canonical c == InvalidDigit)) with
  | false =>
    simp only [Bool.false_eq_true, if_false, true_iff]
    rw [List.all_eq_false] at hs
    obtain ⟨c, hmem, hc⟩ := hs
    refine ⟨c, hmem, ?_⟩
    simpa using hc
  | true =>
    rw [List.all_eq_true] at hs
    simp only [if_true, reduceCtorEq, false_iff]
    intro ⟨c, hmem, hc⟩
    have h := hs c hmem
    simp [hc] at h

lemma canonicalize_fixed (s : List Nat) (h : ∀ c ∈ s, c ∈ Digits) :
    canonicalize s = some s := by
  rw [canonicalize_eq, if_pos]
  · congr 1
    calc s.map Canonical = s.map id :=
        List.map_congr_left (fun c hc => (digits_all_ok c (h c hc)).2.2.1)
      _ = s := List.map_id s
  · rw [List.all_eq_true]
    intro c hc
    have h1 := (digits_all_ok c (h c hc)).2.2.1
    have h2 := (digits_all_ok c (h c hc)).2.2.2
    simp [h1, h2]

lemma encodeStr_mem (bytes : List Nat) : ∀ c ∈ encodeStr bytes, c ∈ Digits := by
  rw [encodeStr_eq_spec]
  intro c hc
  simp only [encodeSpec, List.mem_map, List.mem_range] at hc
  obtain ⟨i, _, rfl⟩ := hc
  exact digit_mem_digits _ (Nat.mod_lt _ (by norm_num))

lemma digits_getD_ne : ∀ i : Fin 32, Digits.getD i.val 0 ≠ 0 := by decide

/-! ## Claim theorems -/

/-- C1, counterexample to the claim as stated: encoding the single byte
`0` gives the two-digit code `"00"`, and decoding it into
`DecodedSize(2) = 2` bytes yields `[0, 0]`, not `[0]` alone: an extra
trailing zero byte is written. -/
theorem roundtrip_bytes_exact_counterexample :
    Decode (encodeStr [0]) ≠ [0] ∧ Decode (encodeStr [0]) = [0, 0] ∧
    DecodedSize (encodeStr [0]).length = 2 := by
  have h : Decode (encodeStr [0]) = [0, 0] := by
    have h0 := decode_encodeStr [0]
    simpa using h0
  refine ⟨by rw [h]; decide, h, ?_⟩
  rw [encodeStr_eq_spec, encodeSpec_length]
  decide

/-- C1 (corrected): decoding `Encode(b)` (into its `DecodedSize`-many
output bytes) yields `b` exactly when `b`'s length is a multiple of 5;
otherwise it yields `b` followed by exactly one extra zero byte, because
`DecodedSize(ceil(8*l/5))` rounds the byte count up. -/
theorem roundtrip_bytes_padded (bytes : List Nat) (hb : ∀ b ∈ bytes, b < 256) :
    Decode (encodeStr bytes) =
      bytes ++ (if bytes.length % 5 = 0 then [] else [0]) := by
  rw [decode_encodeStr]
  congr 1
  calc bytes.map (· % 256) = bytes.map id :=
      List.map_congr_left (fun b h => Nat.mod_eq_of_lt (hb b h))
    _ = bytes := List.map_id bytes

/-- C1, witness: the corrected round trip at the concrete byte sequence
`[1, 2, 3]` (length not a multiple of 5, so one zero byte is
appended). -/
theorem roundtrip_bytes_padded_witness :
    Decode (encodeStr [1, 2, 3]) =
      [1, 2, 3] ++ (if ([1, 2, 3] : List Nat).length % 5 = 0 then [] else [0]) :=
  roundtrip_bytes_padded [1, 2, 3] (by decide)

/-- C2: for every Code `c` of size `n`, `Encode(Decode(c))` equals `c`
with trailing canonical `'0'` digits (character code 48) appended; the
number of appended digits is `ceil(DecodedSize(n)*8/5) - n`, and it is
zero exactly when `5*n` is a multiple of 8. -/
theorem roundtrip_digits_padding (code : List Nat) (hc : ∀ c ∈ code, c ∈ Digits) :
    encodeStr (Decode code) = code ++ List.replicate
      ((8 * DecodedSize code.length + 4) / 5 - code.length) 48 ∧
    ((8 * DecodedSize code.length + 4) / 5 - code.length = 0 ↔
      5 * code.length % 8 = 0) := by
  have h := encodeStr_decode code hc
  simp only [encDigitCount] at h
  refine ⟨h, ?_⟩
  simp only [DecodedSize, DigitBits, CharBits]
  rcases Nat.eq_zero_or_pos (code.length * 5 % 8) with hz | hp
  · rw [if_pos hz]
    omega
  · rw [if_neg (by omega)]
    omega

/-- C2, witness: the digit round trip at the concrete one-digit Code
`"Z"` (code `[90]`), which gains one `'0'` padding digit. -/
theorem roundtrip_digits_padding_witness :
    encodeStr (Decode [90]) = [90] ++ List.replicate
      ((8 * DecodedSize ([90] : List Nat).length + 4) / 5 -
        ([90] : List Nat).length) 48 ∧
    ((8 * DecodedSize ([90] : List Nat).length + 4) / 5 -
        ([90] : List Nat).length = 0 ↔
      5 * ([90] : List Nat).length % 8 = 0) :=
  roundtrip_digits_padding [90] (by decide)

/-- C3, counterexample to the claim as stated: after `Decode` of the
one-digit Code `"Z"` processes all digits, 5 bits remain unemitted
(the final `shift` is 5), not a number between 1 and 4. -/
theorem decode_leftover_counterexample :
    (decodeLoop [90] (0, 0, [])).2.1 = 5 ∧
    ¬(1 ≤ (decodeLoop [90] (0, 0, [])).2.1 ∧
      (decodeLoop [90] (0, 0, [])).2.1 ≤ 4) := by
  decide

/-- C3 (corrected): after the digit loop of `Decode`, the number of
unemitted bits is `5*n mod 8`, which lies between 0 and 7 (between 1
and 7 when any bits remain); exactly when it is non-zero, `Decode`
left-pads those bits with zero bits on the low side and emits exactly
one additional final byte. -/
theorem decode_leftover_bits (code : List Nat) (_hc : ∀ c ∈ code, c ∈ Digits) :
    (decodeLoop code (0, 0, [])).2.1 = 5 * code.length % 8 ∧
    (decodeLoop code (0, 0, [])).2.1 < 8 ∧
    Decode code = (decodeLoop code (0, 0, [])).2.2 ++
      (if 5 * code.length % 8 = 0 then []
       else [digitStreamVal code % 2 ^ (5 * code.length % 8) *
         2 ^ (8 - 5 * code.length % 8)]) ∧
    (Decode code).length = (decodeLoop code (0, 0, [])).2.2.length +
      (if 5 * code.length % 8 = 0 then 0 else 1) := by
  rw [decodeLoop_closed, decode_closed]
  have h8 : 5 * code.length % 8 < 8 := Nat.mod_lt _ (by norm_num)
  refine ⟨rfl, h8, rfl, ?_⟩
  rcases Nat.eq_zero_or_pos (5 * code.length % 8) with hz | hp
  · rw [hz]
    simp
  · rw [if_neg (by omega), if_neg (by omega)]
    simp

/-- C3, witness: the corrected leftover-bit accounting at the concrete
one-digit Code `"Z"` (code `[90]`). -/
theorem decode_leftover_bits_witness :
    (decodeLoop [90] (0, 0, [])).2.1 = 5 * ([90] : List Nat).length % 8 ∧
    (decodeLoop [90] (0, 0, [])).2.1 < 8 ∧
    Decode [90] = (decodeLoop [90] (0, 0, [])).2.2 ++
      (if 5 * ([90] : List Nat).length % 8 = 0 then []
       else [digitStreamVal [90] % 2 ^ (5 * ([90] : List Nat).length % 8) *
         2 ^ (8 - 5 * ([90] : List Nat).length % 8)]) ∧
    (Decode [90]).length = (decodeLoop [90] (0, 0, [])).2.2.length +
      (if 5 * ([90] : List Nat).length % 8 = 0 then 0 else 1) :=
  decode_leftover_bits [90] (by decide)

/-- C4: `Encode` produces, for `l` input bytes, exactly
`encDigitCount l = ceil(8*l/5)` digits, namely the consecutive 5-bit
MSB-first groups of the concatenated bit stream, the incomplete final
group zero-filled in its low bits (`encodeSpec`); the empty input
produces the empty Code. -/
theorem encode_bit_partition :
    (∀ bytes : List Nat, encodeStr bytes = encodeSpec bytes) ∧
    (∀ bytes : List Nat, (encodeStr bytes).length = encDigitCount bytes.length) ∧
    encodeStr [] = [] :=
  ⟨encodeStr_eq_spec,
   fun bytes => by rw [encodeStr_eq_spec]; exact encodeSpec_length bytes,
   rfl⟩

/-- C5: `DecodedSize d = ceil(d*5/8) = (d*5+7)/8` for every digit count
`d` (in particular `DecodedSize 0 = 0`, `DecodedSize 9 = 6`,
`DecodedSize 79 = 50`), and `Decode` writes exactly
`DecodedSize code.length` bytes. -/
theorem decodedSize_formula :
    (∀ d : Nat, DecodedSize d = (d * 5 + 7) / 8) ∧
    DecodedSize 0 = 0 ∧ DecodedSize 9 = 6 ∧ DecodedSize 79 = 50 ∧
    (∀ code : List Nat, (Decode code).length = DecodedSize code.length) := by
  refine ⟨?_, by decide, by decide, by decide, decode_length⟩
  intro d
  simp only [DecodedSize, DigitBits, CharBits]
  rcases Nat.eq_zero_or_pos (d * 5 % 8) with hz | hp
  · rw [if_pos hz]
    omega
  · rw [if_neg (by omega)]
    omega

set_option maxRecDepth 10000 in
/-- C6: `Canonical` is a total function on all 256 character codes and
agrees everywhere with the table as worded in the specification
(`canonicalSpec`): `0`,`o`,`O` to `0`; `1`,`i`,`I`,`l`,`L` to `1`;
every other alphabet character to itself; lower-case alphabet letters
to their upper-case forms; everything else (including `U` and `u`) to
the Invalid sentinel.  `IsValid c` holds iff `Canonical c` is not the
Invalid sentinel. -/
theorem canonical_total_table :
    (∀ c : Fin 256, Canonical c.val = canonicalSpec c.val) ∧
    (∀ c : Fin 256, IsValid c.val = true ↔ Canonical c.val ≠ InvalidDigit) := by
  constructor
  · decide
  · decide

set_option maxRecDepth 10000 in
/-- C7: `Canonical` is idempotent on every character code, and each
tolerated alias set maps to its documented canonical target
(`o`,`O` to `0`; `i`,`I`,`l`,`L` to `1`; the lower-case alphabet
letters to their upper-case forms), each of which is a fixed point
(the canonical digits map to themselves). -/
theorem canonical_idempotent :
    (∀ c : Fin 256, Canonical (Canonical c.val) = Canonical c.val) ∧
    [111, 79].map Canonical = [48, 48] ∧
    [105, 73, 108, 76].map Canonical = [49, 49, 49, 49] ∧
    lowerAliases.map Canonical = lowerAliases.map (fun c => c - 32) ∧
    Digits.map Canonical = Digits := by
  refine ⟨by decide, by decide, by decide, by decide, by decide⟩

/-- C8: constructing a `Base32Code` from a string fails (throws
`std::invalid_argument`, modelled as `none`) iff some character
canonicalizes to the Invalid sentinel; otherwise it succeeds and holds
the string with every character replaced by its canonical form; the
empty string yields the empty (zero-length) canonical string. -/
theorem construction_validation :
    (∀ s : List Nat, canonicalize s =
      if s.all (fun c => !(Canonical c == InvalidDigit)) then some (s.map Canonical)
      else none) ∧
    (∀ s : List Nat, canonicalize s = none ↔ ∃ c ∈ s, Canonical c = InvalidDigit) ∧
    canonicalize [] = some [] :=
  ⟨canonicalize_eq, canonicalize_none_iff, rfl⟩

set_option maxRecDepth 10000 in
/-- C9: `Digits` is exactly the 32 distinct character codes of
`"0123456789ABCDEFGHJKMNPQRSTVWXYZ"` in ascending value order;
`Value (Digits[i]) = i` and `Digit i = Digits[i]` for `i` in `0..31`;
`Digit v` is the null Invalid sentinel exactly for `v` outside
`[0, 31]`; and `Value c = -1` exactly for invalid characters. -/
theorem alphabet_value_bijection :
    Digits = [48, 49, 50, 51, 52, 53, 54, 55, 56, 57, 65, 66, 67, 68, 69, 70,
      71, 72, 74, 75, 77, 78, 80, 81, 82, 83, 84, 86, 87, 88, 89, 90] ∧
    Digits.Nodup ∧ Digits.length = 32 ∧
    (∀ i : Fin 32, Value (Digits.getD i.val 0) = (i.val : Int) ∧
      Digit ((i.val : Nat) : Int) = Digits.getD i.val 0) ∧
    (∀ v : Int, Digit v = InvalidDigit ↔ v < 0 ∨ 32 ≤ v) ∧
    (∀ c : Fin 256, Value c.val = InvalidValue ↔ Canonical c.val = InvalidDigit) := by
  refine ⟨rfl, by decide, by decide, by decide, ?_, by decide⟩
  intro v
  constructor
  · intro h
    by_contra hcon
    have hv : v.toNat < 32 := by
      push_neg at hcon
      omega
    rw [Digit, if_neg hcon] at h
    exact digits_getD_ne ⟨v.toNat, hv⟩ h
  · intro h
    rw [Digit, if_pos h]

/-- C10: every value `Encode` passes to `Digit` is a masked 5-bit group
in `[0, 31]`, so the string it builds consists solely of canonical
alphabet characters (members of `Digits`), and the `Base32Code`
constructor invoked at the end of `Encode` never fails: `Encode` is
total. -/
theorem encode_never_fails (bytes : List Nat) :
    Encode bytes = some (encodeStr bytes) ∧ ∀ c ∈ encodeStr bytes, c ∈ Digits :=
  ⟨canonicalize_fixed _ (encodeStr_mem bytes), encodeStr_mem bytes⟩

end Base32
